import Mathlib

/-!
Shallow embedding of the connection-validation / workflow-submission client
(`src/services/n8nApiService.ts`) and of the assistant-reply parsing step
(`src/services/geminiService.ts`) of the repository, together with proofs of
the specification's testable properties about them.

Modelling conventions:
* JavaScript values produced by `JSON.parse` are modelled by the inductive
  `JsonValue`; numbers are kept as their source lexeme (the claims under test
  never depend on numeric value identity, only on parse structure).
* The platform `fetch` is external: its behaviour is an explicit argument
  (either a received response, or a rejection carrying the error message).
* The platform `JSON.parse` is modelled by the executable recursive-descent
  parser `jsonParseList` below (whitespace per RFC 8259; the model is lenient
  about leading zeros in number literals, which no claim depends on).
* JavaScript exceptions are modelled with `Except String`; a `try`/`catch`
  that recovers into a value is modelled by a total function.
-/

/-- A parsed JSON value (the result of the platform JSON parse).
Numbers carry their lexeme; objects keep members in textual order, duplicates
included (JavaScript property access then takes the last duplicate, see
`jsGetField`). -/
inductive JsonValue where
  | null
  | bool (b : Bool)
  | num (lexeme : String)
  | str (s : String)
  | arr (elems : List JsonValue)
  | obj (members : List (String × JsonValue))

/-- First-occurrence lookup in an association list of object members. -/
def objGet : List (String × JsonValue) → String → Option JsonValue
  | [], _ => none
  | (k1, v) :: rest, k => if k1 = k then some v else objGet rest k

/-- Last-occurrence lookup: the value JavaScript property access observes on a
member list that may hold duplicate keys (later duplicates win). -/
def lookupLast (m : List (String × JsonValue)) (k : String) : Option JsonValue :=
  objGet m.reverse k

/-- JavaScript property access `v[k]` on a parsed JSON value: `undefined`
(here `none`) unless `v` is an object holding the key; on duplicate keys the
last one wins, as in objects built by the platform JSON parse. -/
def jsGetField (v : JsonValue) (k : String) : Option JsonValue :=
  match v with
  | .obj members => lookupLast members k
  | _ => none

/-- Whether all digits of a number lexeme's mantissa (the part before any
exponent marker) are zero, i.e. the numeric value is zero. (Float underflow
of huge negative exponents is not modelled; no claim depends on it.) -/
def numLexemeIsZero (lexeme : String) : Bool :=
  (lexeme.toList.takeWhile (fun c => !(c = 'e' || c = 'E'))).all
    (fun c => !c.isDigit || c = '0')

/-- JavaScript truthiness of a possibly-absent value: `undefined`, `null`,
`false`, `0`, and the empty string are falsy; everything else is truthy. -/
def jsTruthy : Option JsonValue → Bool
  | none => false
  | some .null => false
  | some (.bool b) => b
  | some (.num lexeme) => !numLexemeIsZero lexeme
  | some (.str s) => s ≠ ""
  | some (.arr _) => true
  | some (.obj _) => true

mutual
/-- JavaScript `String(v)` coercion of a parsed JSON value, as used when a
value is interpolated into an `Error` message. Arrays stringify to their
comma-joined elements, plain objects to `"[object Object]"`. -/
def jsToStringCoerce : JsonValue → String
  | .null => "null"
  | .bool true => "true"
  | .bool false => "false"
  | .num lexeme => lexeme
  | .str s => s
  | .arr elems => jsJoinComma elems
  | .obj _ => "[object Object]"

/-- Comma-joined stringification of array elements (JavaScript
`Array.prototype.toString`). -/
def jsJoinComma : List JsonValue → String
  | [] => ""
  | [v] => jsToStringCoerce v
  | v :: rest => jsToStringCoerce v ++ "," ++ jsJoinComma rest
end

/-! ### The connection config and transport model -/

/-- `N8nConnectionConfig` from `src/services/n8nApiService.ts`. -/
structure N8nConnectionConfig where
  baseUrl : String
  apiKey : String
deriving DecidableEq

/-- The observable part of a `fetch` `Response`: status, status text, and the
`content-type` header (`none` models `headers.get` returning `null`). -/
structure HttpResponse where
  status : Nat
  statusText : String
  contentType : Option String
deriving DecidableEq

/-- `Response.ok` of the fetch API: status in the inclusive range 200–299. -/
def responseOk (r : HttpResponse) : Bool :=
  200 ≤ r.status && r.status ≤ 299

/-- Behaviour of the platform `fetch` for one call: either a response was
received, or the returned promise rejected with an error whose message is
`msg` (no response reached). -/
inductive FetchOutcome where
  | response (r : HttpResponse)
  | reject (msg : String)
deriving DecidableEq

/-- `ValidationResult` from `src/services/n8nApiService.ts`. -/
structure ValidationResult where
  success : Bool
  error : Option String
deriving DecidableEq

/-- Whether `pat` is a prefix of `l`, on character lists. -/
def listStartsWith : List Char → List Char → Bool
  | p :: ps, c :: cs => p = c && listStartsWith ps cs
  | pat, _ => pat.isEmpty

/-- Whether `needle` occurs as a contiguous run inside `hay`. -/
def listContainsRun (needle : List Char) : List Char → Bool
  | [] => needle.isEmpty
  | c :: rest => listStartsWith needle (c :: rest) || listContainsRun needle rest

/-- Substring test, modelling `String.prototype.includes`. -/
def strIncludes (hay pat : String) : Bool :=
  listContainsRun pat.toList hay.toList

/-- `baseUrl.replace(/\/$/, "")`: drop one trailing slash if present. -/
def stripTrailingSlash (s : String) : String :=
  match s.toList.reverse with
  | '/' :: rest => String.mk rest.reverse
  | _ => s

/-- The GET endpoint `validateN8nConnection` probes. -/
def validateEndpoint (config : N8nConnectionConfig) : String :=
  stripTrailingSlash config.baseUrl ++ "/api/v1/workflows?limit=1"

/-- The failure message for a 401/403 response (source line 30). -/
def invalidKeyMessage : String := "Chave API inválida (Erro 401/403)."

/-- The failure message when the success response is not JSON (source
line 38). -/
def notJsonMessage : String :=
  "A URL informada não parece ser uma API n8n válida (não retornou JSON)."

/-- The CORS / network failure hint (source lines 46–50). -/
def corsErrorMessage : String :=
  "Bloqueio de CORS ou Erro de Rede. Se você está usando a versão Web, o navegador bloqueou a conexão com seu servidor. Use este app como Extensão do Chrome ou configure cabeçalhos CORS no seu n8n."

/-- Body of the `try` block of `validateN8nConnection` once a response was
received (source lines 27–41): classify status, then content type. -/
def validateTryBody (r : HttpResponse) : ValidationResult :=
  if !responseOk r then
    if r.status = 401 || r.status = 403 then
      { success := false, error := some invalidKeyMessage }
    else
      { success := false
        error := some ("Erro do servidor: " ++ toString r.status ++ " " ++ r.statusText) }
  else
    match r.contentType with
    | none => { success := false, error := some notJsonMessage }
    | some ct =>
      if strIncludes ct "application/json" then { success := true, error := none }
      else { success := false, error := some notJsonMessage }

/-- The `catch` handler of `validateN8nConnection` (source lines 42–54):
classify the rejection message. -/
def validateCatchHandler (msg : String) : ValidationResult :=
  if msg = "Failed to fetch" || strIncludes msg "NetworkError" then
    { success := false, error := some corsErrorMessage }
  else
    { success := false, error := some ("Erro inesperado: " ++ msg) }

/-- `validateN8nConnection` from `src/services/n8nApiService.ts`, as a
function of the transport behaviour: the `try` body handles a received
response, the catch-all handler recovers every rejection into a structured
result, so the function is total (never throws). -/
def validateN8nConnection (config : N8nConnectionConfig) (net : FetchOutcome) :
    ValidationResult :=
  match net with
  | .response r => validateTryBody r
  | .reject msg => validateCatchHandler msg

/-! ### Workflow submission -/

/-- `N8nWorkflow` from `src/types.ts` as far as the client observes it: the
client forwards `nodes` and `connections` opaquely (it never inspects them),
so they are carried as JSON values; `meta` is an optional object whose
members are spread into the payload. -/
structure N8nWorkflow where
  nodes : JsonValue
  connections : JsonValue
  meta : Option (List (String × JsonValue))

/-- Insert-or-update of one member, preserving the position of an existing
key: the effect of one JavaScript spread entry on an object literal (whose
keys are unique, so updating the first occurrence is updating the only
one). -/
def objUpsert : List (String × JsonValue) → String → JsonValue →
    List (String × JsonValue)
  | [], k, v => [(k, v)]
  | (k1, v1) :: rest, k, v =>
    if k1 = k then (k, v) :: rest else (k1, v1) :: objUpsert rest k v

/-- JavaScript object-spread `\x7b...base, ...extra\x7d`: fold the extra
members over the base, later entries overriding earlier ones. -/
def spreadFields (base extra : List (String × JsonValue)) :
    List (String × JsonValue) :=
  extra.foldl (fun acc kv => objUpsert acc kv.1 kv.2) base

/-- The members of the submission payload before the meta spread (source
lines 71–79): synthesized name, the forwarded nodes and connections, and the
fixed settings defaults. `localeTimestamp` stands for
`new Date().toLocaleString()`. -/
def basePayload (w : N8nWorkflow) (localeTimestamp : String) :
    List (String × JsonValue) :=
  [("name", .str ("AI Generated Workflow - " ++ localeTimestamp)),
   ("nodes", w.nodes),
   ("connections", w.connections),
   ("settings", .obj [("saveManualExecutions", .bool true), ("callers", .arr [])])]

/-- The full submission payload built by `saveWorkflowToN8n` (source lines
71–80): the base members with `workflow.meta` spread over them. -/
def buildPayload (w : N8nWorkflow) (localeTimestamp : String) :
    List (String × JsonValue) :=
  match w.meta with
  | none => basePayload w localeTimestamp
  | some m => spreadFields (basePayload w localeTimestamp) m

/-- JSON insignificant whitespace (RFC 8259): space, tab, line feed, carriage
return. This is also the whitespace set over which the fence-stripping
properties below quantify. -/
def isJsonWs (c : Char) : Bool :=
  c = ' ' || c = '\t' || c = '\n' || c = '\r'

/-- Skip insignificant whitespace. -/
def skipWs (l : List Char) : List Char :=
  l.dropWhile isJsonWs

/-- Strip `pat` from the front of `l`, or fail. -/
def stripRun : List Char → List Char → Option (List Char)
  | [], l => some l
  | _ :: _, [] => none
  | p :: ps, c :: cs => if c = p then stripRun ps cs else none

/-- The value of a hexadecimal digit (code points 0–9, a–f, A–F). -/
def hexVal (c : Char) : Option Nat :=
  let n := c.toNat
  if 48 ≤ n && n ≤ 57 then some (n - 48)
  else if 97 ≤ n && n ≤ 102 then some (n - 87)
  else if 65 ≤ n && n ≤ 70 then some (n - 55)
  else none

/-- Decode a single-character string escape, via the RFC 8259 escape
table. -/
def escChar (e : Char) : Option Char :=
  List.lookup e
    [('"', '"'), ('\\', '\\'), ('/', '/'), ('n', '\n'), ('t', '\t'),
     ('r', '\x0d'), ('b', '\x08'), ('f', '\x0c')]

/-- Parse the body of a JSON string after the opening quote: the decoded
characters and the rest of the input after the closing quote. Structural on
the input list. -/
def parseStringBody : List Char → Option (List Char × List Char)
  | [] => none
  | c :: rest =>
    if c = '"' then some ([], rest)
    else if c = '\\' then
      match rest with
      | [] => none
      | e :: rest2 =>
        if e = 'u' then
          match rest2 with
          | h1 :: h2 :: h3 :: h4 :: rest3 =>
            match hexVal h1, hexVal h2, hexVal h3, hexVal h4 with
            | some a, some b, some c2, some d =>
              (parseStringBody rest3).map
                (fun p => (Char.ofNat (((a * 16 + b) * 16 + c2) * 16 + d) :: p.1, p.2))
            | _, _, _, _ => none
          | _ => none
        else
          match escChar e with
          | some d => (parseStringBody rest2).map (fun p => (d :: p.1, p.2))
          | none => none
    else if c.toNat < 32 then none
    else (parseStringBody rest).map (fun p => (c :: p.1, p.2))

/-- Characters that can occur in a number lexeme. -/
def isNumChar (c : Char) : Bool :=
  c.isDigit || c = '-' || c = '+' || c = '.' || c = 'e' || c = 'E'

/-- An optional exponent part: empty, or an exponent marker, an optional
sign, and at least one digit. -/
def validExpPart : List Char → Bool
  | [] => true
  | c :: rest =>
    if c = 'e' || c = 'E' then
      let rest2 := match rest with
        | '+' :: r => r
        | '-' :: r => r
        | r => r
      !(rest2.takeWhile Char.isDigit).isEmpty && (rest2.dropWhile Char.isDigit).isEmpty
    else false

/-- An optional fraction part followed by an optional exponent part. -/
def validFracExp (l : List Char) : Bool :=
  match l with
  | '.' :: rest =>
    !(rest.takeWhile Char.isDigit).isEmpty && validExpPart (rest.dropWhile Char.isDigit)
  | _ => validExpPart l

/-- Grammar check for a number lexeme: optional minus sign, at least one
digit, optional fraction, optional exponent. (Leniency: leading zeros are
accepted, which the platform parse rejects; no claim depends on this.) -/
def validNum (l : List Char) : Bool :=
  let l1 := match l with
    | '-' :: r => r
    | r => r
  !(l1.takeWhile Char.isDigit).isEmpty && validFracExp (l1.dropWhile Char.isDigit)

/-- Scan a number token at the head of the input. -/
def parseNumToken (l : List Char) : Option (JsonValue × List Char) :=
  let lexeme := l.takeWhile isNumChar
  if validNum lexeme then some (.num (String.mk lexeme), l.dropWhile isNumChar)
  else none

mutual
/-- Parse one JSON value at the head of the input (after skipping leading
whitespace), returning it together with the unconsumed rest. Fuelled so that
totality is structural; `jsonParseList` supplies sufficient fuel. -/
def parseValue : Nat → List Char → Option (JsonValue × List Char)
  | 0, _ => none
  | f + 1, l =>
    match skipWs l with
    | [] => none
    | c :: rest =>
      if c = '"' then
        (parseStringBody rest).map (fun p => (.str (String.mk p.1), p.2))
      else if c = 't' then
        (stripRun ['r', 'u', 'e'] rest).map (fun r => (.bool true, r))
      else if c = 'f' then
        (stripRun ['a', 'l', 's', 'e'] rest).map (fun r => (.bool false, r))
      else if c = 'n' then
        (stripRun ['u', 'l', 'l'] rest).map (fun r => (.null, r))
      else if c = '[' then parseArrayItems f rest []
      else if c = '\x7b' then parseObjectItems f rest []
      else if c = '-' || c.isDigit then parseNumToken (c :: rest)
      else none

/-- Inside an array, expecting a value — or the closing bracket when no
element has been parsed yet (`acc` empty). -/
def parseArrayItems : Nat → List Char → List JsonValue →
    Option (JsonValue × List Char)
  | 0, _, _ => none
  | f + 1, l, acc =>
    match skipWs l with
    | [] => none
    | c :: rest =>
      if c = ']' then
        if acc.isEmpty then some (.arr [], rest) else none
      else
        (parseValue f l).bind (fun p => parseArraySep f p.2 (acc ++ [p.1]))

/-- Inside an array after an element, expecting a comma or the closing
bracket. -/
def parseArraySep : Nat → List Char → List JsonValue →
    Option (JsonValue × List Char)
  | 0, _, _ => none
  | f + 1, l, acc =>
    match skipWs l with
    | [] => none
    | c :: rest =>
      if c = ',' then parseArrayItems f rest acc
      else if c = ']' then some (.arr acc, rest)
      else none

/-- Inside an object, expecting a member — or the closing brace when no
member has been parsed yet (`acc` empty). -/
def parseObjectItems : Nat → List Char → List (String × JsonValue) →
    Option (JsonValue × List Char)
  | 0, _, _ => none
  | f + 1, l, acc =>
    match skipWs l with
    | [] => none
    | c :: rest =>
      if c = '\x7d' then
        if acc.isEmpty then some (.obj [], rest) else none
      else if c = '"' then
        (parseStringBody rest).bind (fun kp =>
          match skipWs kp.2 with
          | [] => none
          | c2 :: r2 =>
            if c2 = ':' then
              (parseValue f r2).bind (fun vp =>
                parseObjectSep f vp.2 (acc ++ [(String.mk kp.1, vp.1)]))
            else none)
      else none

/-- Inside an object after a member, expecting a comma or the closing
brace. -/
def parseObjectSep : Nat → List Char → List (String × JsonValue) →
    Option (JsonValue × List Char)
  | 0, _, _ => none
  | f + 1, l, acc =>
    match skipWs l with
    | [] => none
    | c :: rest =>
      if c = ',' then parseObjectItems f rest acc
      else if c = '\x7d' then some (.obj acc, rest)
      else none
end

/-- The platform JSON parse on a character list: one value, possibly
surrounded by insignificant whitespace, and nothing else. `none` models the
parse throwing a syntax error. The fuel `2 * length + 2` is sufficient:
every two units of fuel consume at least one input character. -/
def jsonParseList (l : List Char) : Option JsonValue :=
  match parseValue (2 * l.length + 2) l with
  | some (v, r) => if skipWs r = [] then some v else none
  | none => none

/-- The platform JSON parse on a string. -/
def jsonParseStr (s : String) : Option JsonValue :=
  jsonParseList s.toList

/-! ### The assistant-reply contract (`src/services/geminiService.ts`) -/

/-- JavaScript `String.prototype.trim` restricted to the whitespace the
properties below quantify over: drop leading and trailing whitespace
characters. -/
def trimChars (l : List Char) : List Char :=
  ((l.dropWhile isJsonWs).reverse.dropWhile isJsonWs).reverse

/-- The backtick character (U+0060) of a code-fence marker. -/
def tickChar : Char := '\x60'

/-- The characters of a code-fence marker (three backticks). -/
def fenceChars : List Char := [tickChar, tickChar, tickChar]

/-- The characters of a JSON-tagged code-fence opener (three backticks
followed by `json`). -/
def fenceJsonChars : List Char := fenceChars ++ ['j', 's', 'o', 'n']

/-- `replace(/```$/, "")`: drop a trailing fence marker if present. -/
def stripTrailingFence (l : List Char) : List Char :=
  match stripRun fenceChars l.reverse with
  | some r => r.reverse
  | none => l

/-- `cleanJsonString` from `src/services/geminiService.ts` on character
lists: trim, then strip a leading ```` ```json ```` or ```` ``` ```` marker
and a trailing ```` ``` ```` marker. -/
def cleanJsonChars (l : List Char) : List Char :=
  let cleaned := trimChars l
  match stripRun fenceJsonChars cleaned with
  | some r => stripTrailingFence r
  | none =>
    match stripRun fenceChars cleaned with
    | some r => stripTrailingFence r
    | none => cleaned

/-- `cleanJsonString` on strings. -/
def cleanJsonString (s : String) : String :=
  String.mk (cleanJsonChars s.toList)

/-- The result record `sendMessageToGemini` returns (`AIResponseSchema`
fields as the JavaScript object carries them): each field is the raw value
read off the parsed reply, `none` modelling `undefined`/`null`. -/
structure GeminiResult where
  explanation : Option JsonValue
  workflow : Option JsonValue
  requiredCredentials : Option JsonValue
  tips : Option JsonValue

/-- The catch-all result of `sendMessageToGemini` (source lines 128–134):
an apology explanation carrying the error message, and no workflow. -/
def geminiErrorResult (msg : String) : GeminiResult :=
  { explanation :=
      some (.str ("⚠️ Desculpe, encontrei um erro ao processar sua solicitação: "
        ++ msg ++ ". Tente novamente."))
    workflow := none
    requiredCredentials := none
    tips := none }

/-- Placeholder for the platform-dependent syntax-error message of a failed
outer JSON parse; no claim depends on its text. -/
def jsonSyntaxErrorMessage : String := "Unexpected token in JSON"

/-- The second parse of `workflowJson` (source lines 110–119): attempted
only when the field is truthy; on failure the workflow stays `null` (the
inner catch), with no validation of the parsed value whatsoever. -/
def parseWorkflowField (raw : Option JsonValue) : Option JsonValue :=
  if jsTruthy raw then
    match raw with
    | some wj =>
      match jsonParseStr (jsToStringCoerce wj) with
      | some w => some w
      | none => none
    | none => none
  else none

/-- The response-processing tail of `sendMessageToGemini` (source lines
103–134), as a function of the reply text `result.text`: guard against an
empty reply, clean and parse the outer JSON, attempt the inner workflow
parse, and assemble the result; every failure is recovered by the outer
catch into `geminiErrorResult`, so the function is total (never throws). -/
def processGeminiReply (text : String) : GeminiResult :=
  if text = "" then geminiErrorResult "No response from Gemini"
  else
    match jsonParseList (cleanJsonChars text.toList) with
    | none => geminiErrorResult jsonSyntaxErrorMessage
    | some parsedRaw =>
      { explanation := jsGetField parsedRaw "explanation"
        workflow := parseWorkflowField (jsGetField parsedRaw "workflowJson")
        requiredCredentials := jsGetField parsedRaw "requiredCredentials"
        tips := jsGetField parsedRaw "tips" }

/-! ### Helper lemmas: association-list lookups and the spread -/

/-- Eager option choice, used to state lookup lemmas. -/
def optOr (a b : Option JsonValue) : Option JsonValue :=
  match a with
  | some v => some v
  | none => b

theorem objGet_append (a b : List (String × JsonValue)) (k : String) :
    objGet (a ++ b) k = optOr (objGet a k) (objGet b k) := by
  induction a with
  | nil => simp [objGet, optOr]
  | cons p rest ih =>
    obtain ⟨k1, v⟩ := p
    by_cases h : k1 = k <;> simp [objGet, h, optOr, ih]

theorem objGet_upsert_self (o : List (String × JsonValue)) (k : String) (v : JsonValue) :
    objGet (objUpsert o k v) k = some v := by
  induction o with
  | nil => simp [objUpsert, objGet]
  | cons p rest ih =>
    obtain ⟨k1, v1⟩ := p
    by_cases hk : k1 = k
    · simp [objUpsert, hk, objGet]
    · simp [objUpsert, hk, objGet, ih]

theorem objGet_upsert_other (o : List (String × JsonValue)) (k k2 : String) (v : JsonValue)
    (h : k2 ≠ k) : objGet (objUpsert o k v) k2 = objGet o k2 := by
  induction o with
  | nil =>
    have h2 : k ≠ k2 := fun hh => h hh.symm
    simp [objUpsert, objGet, h2]
  | cons p rest ih =>
    obtain ⟨k1, v1⟩ := p
    by_cases hk : k1 = k
    · subst hk
      have h2 : k1 ≠ k2 := fun hh => h hh.symm
      simp [objUpsert, objGet, h2]
    · by_cases hk2 : k1 = k2
      · subst hk2
        simp [objUpsert, hk, objGet]
      · simp [objUpsert, hk, objGet, hk2, ih]

theorem lookupLast_cons (k1 : String) (v1 : JsonValue)
    (rest : List (String × JsonValue)) (k : String) :
    lookupLast ((k1, v1) :: rest) k =
      optOr (lookupLast rest k) (if k1 = k then some v1 else none) := by
  unfold lookupLast
  simp only [List.reverse_cons]
  rw [objGet_append]
  by_cases h : k1 = k <;> simp [objGet, h]

theorem objGet_spread (base m : List (String × JsonValue)) (k : String) :
    objGet (spreadFields base m) k = optOr (lookupLast m k) (objGet base k) := by
  induction m generalizing base with
  | nil => simp [spreadFields, lookupLast, objGet, optOr]
  | cons p rest ih =>
    obtain ⟨k1, v1⟩ := p
    have hstep : spreadFields base ((k1, v1) :: rest) =
        spreadFields (objUpsert base k1 v1) rest := rfl
    rw [hstep, ih, lookupLast_cons]
    cases hll : lookupLast rest k with
    | some w => simp [optOr]
    | none =>
      simp only [optOr]
      by_cases h : k1 = k
      · subst h
        simp [objGet_upsert_self]
      · simp [h, objGet_upsert_other base k1 k v1 (Ne.symm h)]

/-! ### Claims about `validateN8nConnection` -/

/-- C1: for every config, if the remote responds to the validation GET with a
success status (`response.ok`) and a content-type header indicating JSON,
then `validateN8nConnection` returns the success outcome. -/
theorem validate_success_on_ok_json (config : N8nConnectionConfig)
    (r : HttpResponse) (ct : String)
    (hok : responseOk r = true)
    (hct : r.contentType = some ct)
    (hjson : strIncludes ct "application/json" = true) :
    validateN8nConnection config (.response r) = { success := true, error := none } := by
  simp [validateN8nConnection, validateTryBody, hok, hct, hjson]

/-- Witness for C1: a 200 response with a JSON content type validates. -/
theorem validate_success_on_ok_json_witness :
    validateN8nConnection ⟨"http://host", "key"⟩
      (.response ⟨200, "OK", some "application/json; charset=utf-8"⟩) =
      { success := true, error := none } :=
  validate_success_on_ok_json ⟨"http://host", "key"⟩
    ⟨200, "OK", some "application/json; charset=utf-8"⟩
    "application/json; charset=utf-8" (by decide) rfl (by decide)

/-- C2: for every config, a 401 or 403 response makes `validateN8nConnection`
return the invalid-credentials failure, regardless of the response's other
fields (status text, content type — the body is never read). -/
theorem validate_invalid_credentials_on_401_403 (config : N8nConnectionConfig)
    (r : HttpResponse)
    (hst : r.status = 401 ∨ r.status = 403) :
    validateN8nConnection config (.response r) =
      { success := false, error := some invalidKeyMessage } := by
  cases hst with
  | inl h => simp [validateN8nConnection, validateTryBody, responseOk, h]
  | inr h => simp [validateN8nConnection, validateTryBody, responseOk, h]

/-- Witness for C2: a 403 response with an HTML content type and arbitrary
status text still yields the invalid-credentials failure. -/
theorem validate_invalid_credentials_on_401_403_witness :
    validateN8nConnection ⟨"http://host", "key"⟩
      (.response ⟨403, "Forbidden", some "text/html"⟩) =
      { success := false, error := some invalidKeyMessage } :=
  validate_invalid_credentials_on_401_403 ⟨"http://host", "key"⟩
    ⟨403, "Forbidden", some "text/html"⟩ (Or.inr rfl)

/-- C3: for every config, a success-status response whose content type is
absent or does not indicate JSON makes `validateN8nConnection` return the
not-an-n8n-API failure. -/
theorem validate_not_api_on_non_json (config : N8nConnectionConfig)
    (r : HttpResponse)
    (hok : responseOk r = true)
    (hct : r.contentType = none ∨
      ∃ ct, r.contentType = some ct ∧ strIncludes ct "application/json" = false) :
    validateN8nConnection config (.response r) =
      { success := false, error := some notJsonMessage } := by
  cases hct with
  | inl h => simp [validateN8nConnection, validateTryBody, hok, h]
  | inr h =>
    obtain ⟨ct, hsome, hno⟩ := h
    simp [validateN8nConnection, validateTryBody, hok, hsome, hno]

/-- Witness for C3: a 200 response with content type `text/html` fails as
not an n8n API. -/
theorem validate_not_api_on_non_json_witness :
    validateN8nConnection ⟨"http://host", "key"⟩
      (.response ⟨200, "OK", some "text/html"⟩) =
      { success := false, error := some notJsonMessage } :=
  validate_not_api_on_non_json ⟨"http://host", "key"⟩ ⟨200, "OK", some "text/html"⟩
    (by decide) (Or.inr ⟨"text/html", rfl, by decide⟩)

/-- C4: for every config, if the transport rejects with the generic browser
"fetch failed" signature (the exact `Failed to fetch` message, or a message
containing `NetworkError`), `validateN8nConnection` returns the network
failure carrying the cross-origin hint message. -/
theorem validate_cors_hint_on_fetch_failure (config : N8nConnectionConfig)
    (msg : String)
    (h : msg = "Failed to fetch" ∨ strIncludes msg "NetworkError" = true) :
    validateN8nConnection config (.reject msg) =
      { success := false, error := some corsErrorMessage } := by
  cases h with
  | inl h => simp [validateN8nConnection, validateCatchHandler, h]
  | inr h => simp [validateN8nConnection, validateCatchHandler, h]

/-- Witness for C4: the exact `Failed to fetch` rejection yields the
cross-origin hint. -/
theorem validate_cors_hint_on_fetch_failure_witness :
    validateN8nConnection ⟨"http://host", "key"⟩ (.reject "Failed to fetch") =
      { success := false, error := some corsErrorMessage } :=
  validate_cors_hint_on_fetch_failure ⟨"http://host", "key"⟩ "Failed to fetch"
    (Or.inl rfl)

/-- C5: for every config and every transport behaviour — any response or any
rejection — `validateN8nConnection` returns a structured result (it is a
total function into `ValidationResult`, the catch-all handler recovering
every rejection), and the result is coherent: success carries no error
message, failure always carries one. -/
theorem validate_total_structured_outcome (config : N8nConnectionConfig)
    (net : FetchOutcome) :
    ((validateN8nConnection config net).success = true ∧
      (validateN8nConnection config net).error = none) ∨
    ((validateN8nConnection config net).success = false ∧
      (validateN8nConnection config net).error ≠ none) := by
  cases net with
  | response r =>
    simp only [validateN8nConnection, validateTryBody]
    by_cases hok : responseOk r = true
    · simp only [hok]
      cases hct : r.contentType with
      | none => simp
      | some ct =>
        by_cases hj : strIncludes ct "application/json" = true
        · simp [hj]
        · simp [hj]
    · simp only [Bool.not_eq_true] at hok
      simp only [hok]
      by_cases h43 : (r.status = 401 || r.status = 403) = true
      · simp [h43]
      · simp [h43]
  | reject msg =>
    simp only [validateN8nConnection, validateCatchHandler]
    by_cases h : (msg = "Failed to fetch" || strIncludes msg "NetworkError") = true
    · simp [h]
    · simp [h]

/-! ### Claims about `saveWorkflowToN8n` -/

/-- C6: for every workflow document and timestamp, the submission payload
built by `saveWorkflowToN8n` satisfies: without `meta`, the `name` member is
the synthesized default (fixed prefix plus locale timestamp) and `settings`
is the fixed default object (manual-execution retention on, empty caller
allow-list); with `meta`, any key `meta` binds (its last binding, as the
JavaScript spread observes it) overrides the synthesized member of the same
name, so in particular `meta = \x7bname: "X"\x7d` overrides the default
name. -/
theorem payload_defaults_and_meta_override (w : N8nWorkflow) (ts : String) :
    (w.meta = none →
      objGet (buildPayload w ts) "name" =
        some (.str ("AI Generated Workflow - " ++ ts)) ∧
      objGet (buildPayload w ts) "settings" =
        some (.obj [("saveManualExecutions", .bool true), ("callers", .arr [])])) ∧
    (∀ m k v, w.meta = some m → lookupLast m k = some v →
      objGet (buildPayload w ts) k = some v) := by
  constructor
  · intro hmeta
    unfold buildPayload
    rw [hmeta]
    exact ⟨rfl, rfl⟩
  · intro m k v hmeta hlast
    unfold buildPayload
    rw [hmeta]
    rw [objGet_spread, hlast]
    rfl

/-- Witness for C6: a meta-less document gets the defaults; a document with
`meta = \x7bname: "X"\x7d` gets `name = "X"`. -/
theorem payload_defaults_and_meta_override_witness :
    (objGet (buildPayload ⟨.arr [], .obj [], none⟩ "T") "name" =
        some (.str ("AI Generated Workflow - " ++ "T")) ∧
      objGet (buildPayload ⟨.arr [], .obj [], none⟩ "T") "settings" =
        some (.obj [("saveManualExecutions", .bool true), ("callers", .arr [])])) ∧
    objGet (buildPayload ⟨.arr [], .obj [], some [("name", .str "X")]⟩ "T") "name" =
      some (.str "X") :=
  ⟨(payload_defaults_and_meta_override ⟨.arr [], .obj [], none⟩ "T").1 rfl,
   (payload_defaults_and_meta_override
      ⟨.arr [], .obj [], some [("name", .str "X")]⟩ "T").2
     [("name", .str "X")] "name" (.str "X") rfl rfl⟩

theorem dropWhile_all_append (p : Char → Bool) (a b : List Char)
    (h : ∀ c ∈ a, p c = true) : (a ++ b).dropWhile p = b.dropWhile p := by
  induction a with
  | nil => rfl
  | cons x xs ih =>
    simp only [List.cons_append, List.dropWhile_cons, h x (List.mem_cons_self x xs)]
    exact ih (fun c hc => h c (List.mem_cons_of_mem x hc))

theorem dropWhile_cons_ext (p : Char → Bool) (l ext r : List Char) (c : Char)
    (h : l.dropWhile p = c :: r) : (l ++ ext).dropWhile p = c :: (r ++ ext) := by
  induction l with
  | nil => simp at h
  | cons x xs ih =>
    by_cases hp : p x = true
    · simp only [List.dropWhile_cons, hp, if_true] at h
      simp only [List.cons_append, List.dropWhile_cons, hp, if_true]
      exact ih h
    · simp only [List.dropWhile_cons, hp] at h
      simp only [List.cons_append, List.dropWhile_cons, hp, if_false]
      obtain ⟨hx, hxs⟩ := List.cons.injEq .. ▸ h
      subst hx
      rw [hxs]
      simp

theorem takeWhile_append_no (p : Char → Bool) (l ext : List Char)
    (h : ∀ c ∈ ext, p c = false) : (l ++ ext).takeWhile p = l.takeWhile p := by
  induction l with
  | nil =>
    cases ext with
    | nil => rfl
    | cons e es => simp [List.takeWhile_cons, h e (List.mem_cons_self e es)]
  | cons x xs ih =>
    simp only [List.cons_append, List.takeWhile_cons]
    cases p x <;> simp [ih]

theorem dropWhile_append_no (p : Char → Bool) (l ext : List Char)
    (h : ∀ c ∈ ext, p c = false) : (l ++ ext).dropWhile p = l.dropWhile p ++ ext := by
  induction l with
  | nil =>
    cases ext with
    | nil => rfl
    | cons e es => simp [List.dropWhile_cons, h e (List.mem_cons_self e es)]
  | cons x xs ih =>
    simp only [List.cons_append, List.dropWhile_cons]
    cases p x <;> simp [ih]

theorem ws_char_cases (c : Char) (h : isJsonWs c = true) :
    c = '\x0d' ∨ c = '\x0a' ∨ c = '\x09' ∨ c = ' ' := by
  simp only [isJsonWs, Bool.or_eq_true, decide_eq_true_eq] at h
  tauto

theorem ws_not_num (c : Char) (h : isJsonWs c = true) : isNumChar c = false := by
  rcases ws_char_cases c h with h | h | h | h <;> subst h <;> decide

theorem stripRun_append_self (ps x : List Char) : stripRun ps (ps ++ x) = some x := by
  induction ps with
  | nil => rfl
  | cons p rest ih => simp [stripRun, ih]

theorem stripRun_append_left (a b x : List Char) :
    stripRun (a ++ b) (a ++ x) = stripRun b x := by
  induction a with
  | nil => rfl
  | cons p rest ih => simp [stripRun, ih]

theorem stripRun_ext (ps l ext r : List Char) (h : stripRun ps l = some r) :
    stripRun ps (l ++ ext) = some (r ++ ext) := by
  induction ps generalizing l with
  | nil =>
    simp [stripRun] at h
    subst h
    rfl
  | cons p rest ih =>
    cases l with
    | nil => simp [stripRun] at h
    | cons c cs =>
      by_cases hc : c = p
      · subst hc
        simp only [stripRun, if_pos rfl] at h
        simpa [stripRun] using ih cs h
      · simp [stripRun, hc] at h

theorem parseStringBody_ext (ext : List Char) :
    ∀ (l s r : List Char), parseStringBody l = some (s, r) →
      parseStringBody (l ++ ext) = some (s, r ++ ext) := by
  intro l
  induction l using parseStringBody.induct with
  | case1 =>
    intro s r h
    simp [parseStringBody] at h
  | case2 rest =>
    intro s r h
    rw [parseStringBody.eq_def] at h
    simp at h
    rw [List.cons_append, parseStringBody.eq_def]
    simp
    obtain ⟨hs, hr⟩ := h
    subst hs
    subst hr
    exact ⟨rfl, rfl⟩
  | case3 hne =>
    intro s r h
    rw [parseStringBody.eq_def] at h
    simp at h
  | case4 h1 h2 h3 h4 rest3 a b c2 d hd4 hd3 hd2 hd1 hne ih =>
    intro s r h
    rw [parseStringBody.eq_def] at h
    simp only [List.cons_append]
    rw [parseStringBody.eq_def]
    simp only [hd1, hd2, hd3, hd4] at h ⊢
    simp at h ⊢
    cases hps : parseStringBody rest3 with
    | none => rw [hps] at h; simp at h
    | some p =>
      obtain ⟨s1, r1⟩ := p
      rw [hps] at h
      simp at h
      rw [ih s1 r1 hps]
      simpa using h
  | case5 h1 h2 h3 h4 rest3 hnone hne =>
    intro s r h
    exfalso
    rw [parseStringBody.eq_def] at h
    simp at h
  | case6 rest hshort hne =>
    intro s r h
    exfalso
    rcases rest with _ | ⟨a, _ | ⟨b, _ | ⟨c, _⟩⟩⟩ <;>
      (rw [parseStringBody.eq_def] at h; simp [escChar] at h)
  | case7 e rest hu d hd hne ih =>
    intro s r h
    rw [parseStringBody.eq_def] at h
    simp only [List.cons_append]
    rw [parseStringBody.eq_def]
    simp only [hu, hd] at h ⊢
    simp [hu] at h ⊢
    cases hps : parseStringBody rest with
    | none => rw [hps] at h; simp at h
    | some p =>
      obtain ⟨s1, r1⟩ := p
      rw [hps] at h
      simp at h
      rw [ih s1 r1 hps]
      simpa using h
  | case8 e rest hu hd hne =>
    intro s r h
    rw [parseStringBody.eq_def] at h
    simp [hu, hd] at h
  | case9 c rest hq hb hctl =>
    intro s r h
    rw [parseStringBody.eq_def] at h
    simp [hq, hb, hctl] at h
  | case10 c rest hq hb hctl ih =>
    intro s r h
    rw [parseStringBody.eq_def] at h
    simp only [List.cons_append]
    rw [parseStringBody.eq_def]
    simp [hq, hb, hctl] at h ⊢
    cases hps : parseStringBody rest with
    | none => rw [hps] at h; simp at h
    | some p =>
      obtain ⟨s1, r1⟩ := p
      rw [hps] at h
      simp at h
      rw [ih s1 r1 hps]
      simpa using h

theorem parse_mono_step : ∀ f : Nat,
    (∀ l v r, parseValue f l = some (v, r) → parseValue (f + 1) l = some (v, r)) ∧
    (∀ l acc v r, parseArrayItems f l acc = some (v, r) →
      parseArrayItems (f + 1) l acc = some (v, r)) ∧
    (∀ l acc v r, parseArraySep f l acc = some (v, r) →
      parseArraySep (f + 1) l acc = some (v, r)) ∧
    (∀ l acc v r, parseObjectItems f l acc = some (v, r) →
      parseObjectItems (f + 1) l acc = some (v, r)) ∧
    (∀ l acc v r, parseObjectSep f l acc = some (v, r) →
      parseObjectSep (f + 1) l acc = some (v, r)) := by
  intro f
  induction f with
  | zero =>
    refine ⟨?_, ?_, ?_, ?_, ?_⟩ <;> intro l
    · intro v r h
      simp [parseValue] at h
    all_goals intro acc v r h
    · simp [parseArrayItems] at h
    · simp [parseArraySep] at h
    · simp [parseObjectItems] at h
    · simp [parseObjectSep] at h
  | succ f ih =>
    obtain ⟨ihV, ihA, ihAS, ihO, ihOS⟩ := ih
    refine ⟨?_, ?_, ?_, ?_, ?_⟩
    · -- parseValue
      intro l v r h
      rw [parseValue] at h ⊢
      cases hsk : skipWs l with
      | nil => rw [hsk] at h; simp at h
      | cons c rest =>
        rw [hsk] at h
        by_cases h1 : c = '"'
        · simpa [h1] using h
        · by_cases h2 : c = 't'
          · simpa [h1, h2] using h
          · by_cases h3 : c = 'f'
            · simpa [h1, h2, h3] using h
            · by_cases h4 : c = 'n'
              · simpa [h1, h2, h3, h4] using h
              · by_cases h5 : c = '['
                · simp only [if_neg h1, if_neg h2, if_neg h3, if_neg h4, if_pos h5] at h ⊢
                  exact ihA _ _ _ _ h
                · by_cases h6 : c = '\x7b'
                  · simp only [if_neg h1, if_neg h2, if_neg h3, if_neg h4, if_neg h5,
                      if_pos h6] at h ⊢
                    exact ihO _ _ _ _ h
                  · simp only [if_neg h1, if_neg h2, if_neg h3, if_neg h4, if_neg h5,
                      if_neg h6] at h ⊢
                    exact h
    · -- parseArrayItems
      intro l acc v r h
      rw [parseArrayItems] at h ⊢
      cases hsk : skipWs l with
      | nil => rw [hsk] at h; simp at h
      | cons c rest =>
        rw [hsk] at h
        by_cases h1 : c = ']'
        · simpa [h1] using h
        · simp only [if_neg h1] at h ⊢
          cases hpv : parseValue f l with
          | none => rw [hpv] at h; simp at h
          | some p =>
            obtain ⟨v1, r1⟩ := p
            rw [hpv] at h
            rw [ihV _ _ _ hpv]
            simp only [Option.some_bind] at h ⊢
            exact ihAS _ _ _ _ h
    · -- parseArraySep
      intro l acc v r h
      rw [parseArraySep] at h ⊢
      cases hsk : skipWs l with
      | nil => rw [hsk] at h; simp at h
      | cons c rest =>
        rw [hsk] at h
        by_cases h1 : c = ','
        · simp only [if_pos h1] at h ⊢
          exact ihA _ _ _ _ h
        · simpa [h1] using h
    · -- parseObjectItems
      intro l acc v r h
      rw [parseObjectItems] at h ⊢
      cases hsk : skipWs l with
      | nil => rw [hsk] at h; simp at h
      | cons c rest =>
        rw [hsk] at h
        by_cases h1 : c = '\x7d'
        · simpa [h1] using h
        · by_cases h2 : c = '"'
          · simp only [if_neg h1, if_pos h2] at h ⊢
            cases hps : parseStringBody rest with
            | none => rw [hps] at h; simp at h
            | some kp =>
              obtain ⟨k, r1⟩ := kp
              rw [hps] at h
              simp only [Option.some_bind] at h ⊢
              generalize skipWs r1 = sk at h ⊢
              cases sk with
              | nil => simp at h
              | cons c2 r2 =>
                by_cases h3 : c2 = ':'
                · simp only [if_pos h3] at h ⊢
                  cases hpv : parseValue f r2 with
                  | none => rw [hpv] at h; simp at h
                  | some vp =>
                    obtain ⟨v1, r3⟩ := vp
                    rw [hpv] at h
                    rw [ihV _ _ _ hpv]
                    simp only [Option.some_bind] at h ⊢
                    exact ihOS _ _ _ _ h
                · simp [h3] at h
          · simp [h1, h2] at h
    · -- parseObjectSep
      intro l acc v r h
      rw [parseObjectSep] at h ⊢
      cases hsk : skipWs l with
      | nil => rw [hsk] at h; simp at h
      | cons c rest =>
        rw [hsk] at h
        by_cases h1 : c = ','
        · simp only [if_pos h1] at h ⊢
          exact ihO _ _ _ _ h
        · simpa [h1] using h

theorem skipWs_cons_ext (l ext r : List Char) (c : Char)
    (h : skipWs l = c :: r) : skipWs (l ++ ext) = c :: (r ++ ext) :=
  dropWhile_cons_ext isJsonWs l ext r c h

theorem parseNumToken_ext (l ext : List Char) (v : JsonValue) (r : List Char)
    (hext : ∀ c ∈ ext, isJsonWs c = true)
    (h : parseNumToken l = some (v, r)) :
    parseNumToken (l ++ ext) = some (v, r ++ ext) := by
  have hno : ∀ c ∈ ext, isNumChar c = false := fun c hc => ws_not_num c (hext c hc)
  unfold parseNumToken at h ⊢
  rw [takeWhile_append_no isNumChar l ext hno, dropWhile_append_no isNumChar l ext hno]
  by_cases hv : validNum (l.takeWhile isNumChar) = true
  · rw [if_pos hv] at h ⊢
    obtain ⟨hv1, hr1⟩ := Prod.mk.injEq .. ▸ Option.some.inj h
    rw [hv1, hr1]
  · rw [if_neg hv] at h
    simp at h

theorem parse_ext_step (ext : List Char) (hext : ∀ c ∈ ext, isJsonWs c = true) :
    ∀ f : Nat,
    (∀ l v r, parseValue f l = some (v, r) →
      parseValue f (l ++ ext) = some (v, r ++ ext)) ∧
    (∀ l acc v r, parseArrayItems f l acc = some (v, r) →
      parseArrayItems f (l ++ ext) acc = some (v, r ++ ext)) ∧
    (∀ l acc v r, parseArraySep f l acc = some (v, r) →
      parseArraySep f (l ++ ext) acc = some (v, r ++ ext)) ∧
    (∀ l acc v r, parseObjectItems f l acc = some (v, r) →
      parseObjectItems f (l ++ ext) acc = some (v, r ++ ext)) ∧
    (∀ l acc v r, parseObjectSep f l acc = some (v, r) →
      parseObjectSep f (l ++ ext) acc = some (v, r ++ ext)) := by
  intro f
  induction f with
  | zero =>
    refine ⟨?_, ?_, ?_, ?_, ?_⟩ <;> intro l
    · intro v r h
      simp [parseValue] at h
    all_goals intro acc v r h
    · simp [parseArrayItems] at h
    · simp [parseArraySep] at h
    · simp [parseObjectItems] at h
    · simp [parseObjectSep] at h
  | succ f ih =>
    obtain ⟨ihV, ihA, ihAS, ihO, ihOS⟩ := ih
    refine ⟨?_, ?_, ?_, ?_, ?_⟩
    · -- parseValue
      intro l v r h
      rw [parseValue] at h ⊢
      cases hsk : skipWs l with
      | nil => rw [hsk] at h; simp at h
      | cons c rest =>
        rw [hsk] at h
        rw [skipWs_cons_ext l ext rest c hsk]
        by_cases h1 : c = '"'
        · simp only [if_pos h1] at h ⊢
          cases hps : parseStringBody rest with
          | none => rw [hps] at h; simp at h
          | some p =>
            obtain ⟨s1, r1⟩ := p
            rw [hps] at h
            rw [parseStringBody_ext ext rest s1 r1 hps]
            simpa using h
        · by_cases h2 : c = 't'
          · simp only [if_neg h1, if_pos h2] at h ⊢
            cases hsr : stripRun ['r', 'u', 'e'] rest with
            | none => rw [hsr] at h; simp at h
            | some r1 =>
              rw [hsr] at h
              rw [stripRun_ext _ rest ext r1 hsr]
              simpa using h
          · by_cases h3 : c = 'f'
            · simp only [if_neg h1, if_neg h2, if_pos h3] at h ⊢
              cases hsr : stripRun ['a', 'l', 's', 'e'] rest with
              | none => rw [hsr] at h; simp at h
              | some r1 =>
                rw [hsr] at h
                rw [stripRun_ext _ rest ext r1 hsr]
                simpa using h
            · by_cases h4 : c = 'n'
              · simp only [if_neg h1, if_neg h2, if_neg h3, if_pos h4] at h ⊢
                cases hsr : stripRun ['u', 'l', 'l'] rest with
                | none => rw [hsr] at h; simp at h
                | some r1 =>
                  rw [hsr] at h
                  rw [stripRun_ext _ rest ext r1 hsr]
                  simpa using h
              · by_cases h5 : c = '['
                · simp only [if_neg h1, if_neg h2, if_neg h3, if_neg h4, if_pos h5] at h ⊢
                  exact ihA _ _ _ _ h
                · by_cases h6 : c = '\x7b'
                  · simp only [if_neg h1, if_neg h2, if_neg h3, if_neg h4, if_neg h5,
                      if_pos h6] at h ⊢
                    exact ihO _ _ _ _ h
                  · simp only [if_neg h1, if_neg h2, if_neg h3, if_neg h4, if_neg h5,
                      if_neg h6] at h ⊢
                    by_cases h7 : (c = '-' || c.isDigit) = true
                    · rw [if_pos h7] at h ⊢
                      exact parseNumToken_ext (c :: rest) ext v r hext h
                    · rw [if_neg h7] at h
                      simp at h
    · -- parseArrayItems
      intro l acc v r h
      rw [parseArrayItems] at h ⊢
      cases hsk : skipWs l with
      | nil => rw [hsk] at h; simp at h
      | cons c rest =>
        rw [hsk] at h
        rw [skipWs_cons_ext l ext rest c hsk]
        by_cases h1 : c = ']'
        · simp only [if_pos h1] at h ⊢
          by_cases hacc : acc.isEmpty = true
          · rw [if_pos hacc] at h ⊢
            simpa using h
          · rw [if_neg hacc] at h
            simp at h
        · simp only [if_neg h1] at h ⊢
          cases hpv : parseValue f l with
          | none => rw [hpv] at h; simp at h
          | some p =>
            obtain ⟨v1, r1⟩ := p
            rw [hpv] at h
            rw [ihV _ _ _ hpv]
            simp only [Option.some_bind] at h ⊢
            exact ihAS _ _ _ _ h
    · -- parseArraySep
      intro l acc v r h
      rw [parseArraySep] at h ⊢
      cases hsk : skipWs l with
      | nil => rw [hsk] at h; simp at h
      | cons c rest =>
        rw [hsk] at h
        rw [skipWs_cons_ext l ext rest c hsk]
        by_cases h1 : c = ','
        · simp only [if_pos h1] at h ⊢
          exact ihA _ _ _ _ h
        · by_cases h2 : c = ']'
          · simp only [if_neg h1, if_pos h2] at h ⊢
            simpa using h
          · simp [h1, h2] at h
    · -- parseObjectItems
      intro l acc v r h
      rw [parseObjectItems] at h ⊢
      cases hsk : skipWs l with
      | nil => rw [hsk] at h; simp at h
      | cons c rest =>
        rw [hsk] at h
        rw [skipWs_cons_ext l ext rest c hsk]
        by_cases h1 : c = '\x7d'
        · simp only [if_pos h1] at h ⊢
          by_cases hacc : acc.isEmpty = true
          · rw [if_pos hacc] at h ⊢
            simpa using h
          · rw [if_neg hacc] at h
            simp at h
        · by_cases h2 : c = '"'
          · simp only [if_neg h1, if_pos h2] at h ⊢
            cases hps : parseStringBody rest with
            | none => rw [hps] at h; simp at h
            | some kp =>
              obtain ⟨k, r1⟩ := kp
              rw [hps] at h
              rw [parseStringBody_ext ext rest k r1 hps]
              simp only [Option.some_bind] at h ⊢
              cases hsk2 : skipWs r1 with
              | nil =>
                rw [hsk2] at h
                simp at h
              | cons c2 r2 =>
                rw [hsk2] at h
                rw [skipWs_cons_ext r1 ext r2 c2 hsk2]
                by_cases h3 : c2 = ':'
                · simp only [if_pos h3] at h ⊢
                  cases hpv : parseValue f r2 with
                  | none => rw [hpv] at h; simp at h
                  | some vp =>
                    obtain ⟨v1, r3⟩ := vp
                    rw [hpv] at h
                    rw [ihV _ _ _ hpv]
                    simp only [Option.some_bind] at h ⊢
                    exact ihOS _ _ _ _ h
                · simp [h3] at h
          · simp [h1, h2] at h
    · -- parseObjectSep
      intro l acc v r h
      rw [parseObjectSep] at h ⊢
      cases hsk : skipWs l with
      | nil => rw [hsk] at h; simp at h
      | cons c rest =>
        rw [hsk] at h
        rw [skipWs_cons_ext l ext rest c hsk]
        by_cases h1 : c = ','
        · simp only [if_pos h1] at h ⊢
          exact ihO _ _ _ _ h
        · by_cases h2 : c = '\x7d'
          · simp only [if_neg h1, if_pos h2] at h ⊢
            simpa using h
          · simp [h1, h2] at h

theorem parse_mono_le (f g : Nat) (hle : f ≤ g) (l : List Char) (v : JsonValue)
    (r : List Char) (h : parseValue f l = some (v, r)) :
    parseValue g l = some (v, r) := by
  induction g with
  | zero =>
    have : f = 0 := Nat.le_zero.mp hle
    subst this
    exact h
  | succ g ihg =>
    rcases Nat.lt_or_ge f (g + 1) with hlt | hge
    · exact (parse_mono_step g).1 l v r (ihg (Nat.lt_succ_iff.mp hlt))
    · have : f = g + 1 := Nat.le_antisymm hle hge
      subst this
      exact h

theorem parseValue_nil (f : Nat) : parseValue f [] = none := by
  cases f with
  | zero => rfl
  | succ f => rw [parseValue]; rfl

theorem parseValue_ws_lead (f : Nat) (w l : List Char)
    (hw : ∀ c ∈ w, isJsonWs c = true) :
    parseValue f (w ++ l) = parseValue f l := by
  cases f with
  | zero => rfl
  | succ f =>
    rw [parseValue, parseValue]
    rw [show skipWs (w ++ l) = skipWs l from dropWhile_all_append isJsonWs w l hw]

theorem parseValue_head_j (f : Nat) (rest : List Char) :
    parseValue f ('j' :: rest) = none := by
  cases f with
  | zero => rfl
  | succ f =>
    rw [parseValue]
    rw [show skipWs ('j' :: rest) = 'j' :: rest by simp [skipWs, List.dropWhile_cons, isJsonWs]]
    simp

theorem dropWhile_cons_false (p : Char → Bool) (c : Char) (l : List Char)
    (h : p c = false) : (c :: l).dropWhile p = c :: l := by
  simp [List.dropWhile_cons, h]

theorem skipWs_all_nil (l : List Char) (h : ∀ c ∈ l, isJsonWs c = true) :
    skipWs l = [] :=
  List.dropWhile_eq_nil_iff.mpr h

theorem skipWs_nil_all (l : List Char) (h : skipWs l = []) :
    ∀ c ∈ l, isJsonWs c = true :=
  List.dropWhile_eq_nil_iff.mp h

/-- Padding a successfully parsed text with insignificant whitespace on both
sides does not change the parse result. -/
theorem jsonParseList_ws_pad (m1 t m2 : List Char) (v : JsonValue)
    (hm1 : ∀ c ∈ m1, isJsonWs c = true) (hm2 : ∀ c ∈ m2, isJsonWs c = true)
    (h : jsonParseList t = some v) :
    jsonParseList (m1 ++ t ++ m2) = some v := by
  unfold jsonParseList at h ⊢
  cases hpv : parseValue (2 * t.length + 2) t with
  | none => rw [hpv] at h; simp at h
  | some p =>
    obtain ⟨v1, r⟩ := p
    rw [hpv] at h
    by_cases hrest : skipWs r = []
    · simp only [hrest, if_true] at h
      have hv1 : v1 = v := Option.some.inj h
      subst hv1
      have hF : 2 * t.length + 2 ≤ 2 * (m1 ++ t ++ m2).length + 2 := by
        simp only [List.length_append]
        omega
      have h1 := parse_mono_le (2 * t.length + 2) (2 * (m1 ++ t ++ m2).length + 2)
        hF t v1 r hpv
      have h2 := (parse_ext_step m2 hm2 (2 * (m1 ++ t ++ m2).length + 2)).1
        t v1 r h1
      have h3 : parseValue (2 * (m1 ++ t ++ m2).length + 2) (m1 ++ t ++ m2) =
          some (v1, r ++ m2) := by
        rw [show m1 ++ t ++ m2 = m1 ++ (t ++ m2) from by simp]
        rw [parseValue_ws_lead _ m1 (t ++ m2) hm1]
        simpa [List.append_assoc] using h2
      have h4 : skipWs (r ++ m2) = [] := skipWs_all_nil (r ++ m2) (by
        intro c hc
        rcases List.mem_append.mp hc with hcr | hcm
        · exact skipWs_nil_all r hrest c hcr
        · exact hm2 c hcm)
      rw [h3]
      simp [h4]
    · simp [hrest] at h

/-- Trimming whitespace around a block that starts with non-whitespace `c`
and ends with non-whitespace `d` yields exactly the block. -/
theorem trimChars_sandwich (w1 x w2 : List Char) (c d : Char)
    (hw1 : ∀ a ∈ w1, isJsonWs a = true) (hw2 : ∀ a ∈ w2, isJsonWs a = true)
    (hc : isJsonWs c = false) (hd : isJsonWs d = false) :
    trimChars (w1 ++ ((c :: (x ++ [d])) ++ w2)) = c :: (x ++ [d]) := by
  unfold trimChars
  rw [show w1 ++ ((c :: (x ++ [d])) ++ w2) = w1 ++ (c :: (x ++ [d] ++ w2)) from by simp]
  rw [dropWhile_all_append isJsonWs w1 _ hw1]
  rw [dropWhile_cons_false isJsonWs c _ hc]
  rw [show (c :: (x ++ [d] ++ w2)).reverse =
    w2.reverse ++ (d :: (x.reverse ++ [c])) from by simp]
  rw [dropWhile_all_append isJsonWs w2.reverse _
    (fun a ha => hw2 a (List.mem_reverse.mp ha))]
  rw [dropWhile_cons_false isJsonWs d _ hd]
  rw [show (d :: (x.reverse ++ [c])).reverse = c :: (x ++ [d]) from by simp]

/-- Stripping the trailing fence marker from a block that ends with one
yields the block without it. -/
theorem stripTrailingFence_append (mid : List Char) :
    stripTrailingFence (mid ++ fenceChars) = mid := by
  unfold stripTrailingFence
  rw [show (mid ++ fenceChars).reverse = fenceChars ++ mid.reverse from by
    simp [fenceChars]]
  rw [stripRun_append_self]
  simp

theorem stripRun_cons_ne (p : Char) (ps : List Char) (c : Char) (cs : List Char)
    (h : c = p → False) : stripRun (p :: ps) (c :: cs) = none := by
  simp only [stripRun]
  rw [if_neg h]

/-- `cleanJsonString` on a ```` ```json ````-fenced block surrounded by
whitespace recovers exactly the fenced content. -/
theorem cleanJson_json_fence (w1 mid w2 : List Char)
    (hw1 : ∀ c ∈ w1, isJsonWs c = true) (hw2 : ∀ c ∈ w2, isJsonWs c = true) :
    cleanJsonChars (w1 ++ ((fenceJsonChars ++ mid ++ fenceChars) ++ w2)) = mid := by
  have hshape : fenceJsonChars ++ mid ++ fenceChars =
      tickChar :: ((tickChar :: tickChar :: 'j' :: 's' :: 'o' :: 'n' ::
        (mid ++ [tickChar, tickChar])) ++ [tickChar]) := by
    simp [fenceJsonChars, fenceChars]
  have htrim : trimChars (w1 ++ ((fenceJsonChars ++ mid ++ fenceChars) ++ w2)) =
      fenceJsonChars ++ mid ++ fenceChars := by
    rw [hshape]
    exact trimChars_sandwich w1 _ w2 tickChar tickChar hw1 hw2 rfl rfl
  unfold cleanJsonChars
  rw [htrim]
  rw [show fenceJsonChars ++ mid ++ fenceChars =
    fenceJsonChars ++ (mid ++ fenceChars) from by simp]
  dsimp only
  rw [stripRun_append_self]
  simp [stripTrailingFence_append]

/-- `cleanJsonString` on a plain ```` ``` ````-fenced block surrounded by
whitespace recovers exactly the fenced content, provided the content does
not begin with the letter `j` (otherwise the opener could be mistaken for a
```` ```json ```` marker). -/
theorem cleanJson_plain_fence (w1 mid w2 : List Char)
    (hw1 : ∀ c ∈ w1, isJsonWs c = true) (hw2 : ∀ c ∈ w2, isJsonWs c = true)
    (hj : mid.head? = some 'j' → False) :
    cleanJsonChars (w1 ++ ((fenceChars ++ mid ++ fenceChars) ++ w2)) = mid := by
  have hshape : fenceChars ++ mid ++ fenceChars =
      tickChar :: ((tickChar :: tickChar ::
        (mid ++ [tickChar, tickChar])) ++ [tickChar]) := by
    simp [fenceChars]
  have htrim : trimChars (w1 ++ ((fenceChars ++ mid ++ fenceChars) ++ w2)) =
      fenceChars ++ mid ++ fenceChars := by
    rw [hshape]
    exact trimChars_sandwich w1 _ w2 tickChar tickChar hw1 hw2 rfl rfl
  have hnone : stripRun fenceJsonChars (fenceChars ++ (mid ++ fenceChars)) = none := by
    rw [show fenceJsonChars = fenceChars ++ ['j', 's', 'o', 'n'] from rfl]
    rw [stripRun_append_left]
    cases mid with
    | nil =>
      rw [show ([] : List Char) ++ fenceChars =
        tickChar :: [tickChar, tickChar] from by simp [fenceChars]]
      exact stripRun_cons_ne 'j' ['s', 'o', 'n'] tickChar [tickChar, tickChar]
        (by decide)
    | cons c cs =>
      rw [show (c :: cs) ++ fenceChars = c :: (cs ++ fenceChars) from by simp]
      refine stripRun_cons_ne 'j' ['s', 'o', 'n'] c (cs ++ fenceChars) ?_
      intro hcj
      exact hj (by rw [hcj]; rfl)
  unfold cleanJsonChars
  rw [htrim]
  rw [show fenceChars ++ mid ++ fenceChars =
    fenceChars ++ (mid ++ fenceChars) from by simp]
  dsimp only
  rw [hnone, stripRun_append_self]
  simp [stripTrailingFence_append]

theorem jsonParseList_nil : jsonParseList ([] : List Char) = none := by
  unfold jsonParseList
  rw [parseValue_nil]

theorem jsonParseList_head_j (cs : List Char) :
    jsonParseList ('j' :: cs) = none := by
  unfold jsonParseList
  rw [parseValue_head_j]

/-- C8: for every JSON text `t` (any text the platform parse accepts),
parsing the assistant reply consisting of `t` wrapped in a fenced code block
— a ```` ``` ```` or ```` ```json ```` opener, whitespace between the
markers and the text, surrounding whitespace outside the fences — after the
fence-stripping step of `cleanJsonString` yields the same result as parsing
the unwrapped text `t` itself. -/
theorem fence_strip_parse_equiv (t w1 m1 m2 w2 : List Char) (v : JsonValue)
    (hw1 : ∀ c ∈ w1, isJsonWs c = true) (hm1 : ∀ c ∈ m1, isJsonWs c = true)
    (hm2 : ∀ c ∈ m2, isJsonWs c = true) (hw2 : ∀ c ∈ w2, isJsonWs c = true)
    (ht : jsonParseList t = some v) :
    jsonParseList (cleanJsonChars
        (w1 ++ ((fenceJsonChars ++ (m1 ++ t ++ m2) ++ fenceChars) ++ w2))) =
      jsonParseList t ∧
    jsonParseList (cleanJsonChars
        (w1 ++ ((fenceChars ++ (m1 ++ t ++ m2) ++ fenceChars) ++ w2))) =
      jsonParseList t := by
  have htne : t ≠ [] := by
    intro h0
    rw [h0, jsonParseList_nil] at ht
    cases ht
  have htj : ∀ cs, t = 'j' :: cs → False := by
    intro cs h0
    rw [h0, jsonParseList_head_j] at ht
    cases ht
  have hj : (m1 ++ t ++ m2).head? = some 'j' → False := by
    intro hh
    cases m1 with
    | cons c cs =>
      have hc : c = 'j' := by simpa using hh
      have := hm1 c (List.mem_cons_self c cs)
      rw [hc] at this
      exact absurd this (by decide)
    | nil =>
      cases t with
      | nil => exact htne rfl
      | cons c cs =>
        have hc : c = 'j' := by simpa using hh
        exact htj cs (by rw [hc])
  constructor
  · rw [cleanJson_json_fence w1 (m1 ++ t ++ m2) w2 hw1 hw2, ht]
    exact jsonParseList_ws_pad m1 t m2 v hm1 hm2 ht
  · rw [cleanJson_plain_fence w1 (m1 ++ t ++ m2) w2 hw1 hw2 hj, ht]
    exact jsonParseList_ws_pad m1 t m2 v hm1 hm2 ht

/-- Witness for C8: the text `[1]` wrapped in each fence style, with
newlines inside and spaces outside, parses to the same value as plain
`[1]`. -/
theorem fence_strip_parse_equiv_witness :
    jsonParseList (cleanJsonChars
        (" ".toList ++ ((fenceJsonChars ++ ("\n".toList ++ "[1]".toList ++ "\n".toList) ++ fenceChars) ++ " ".toList))) =
      jsonParseList "[1]".toList ∧
    jsonParseList (cleanJsonChars
        (" ".toList ++ ((fenceChars ++ ("\n".toList ++ "[1]".toList ++ "\n".toList) ++ fenceChars) ++ " ".toList))) =
      jsonParseList "[1]".toList :=
  fence_strip_parse_equiv "[1]".toList " ".toList "\n".toList "\n".toList
    " ".toList (.arr [.num "1"]) (by decide) (by decide) (by decide) (by decide)
    (by rfl)

/-- C9: for every assistant reply whose outer JSON parses to `j` and whose
`workflowJson` field is a present, non-empty, but syntactically invalid JSON
string `s`, the processed result preserves the outer `explanation` and
carries no workflow — the inner parse failure is recovered inside
`sendMessageToGemini` (the function is total here by construction), not
thrown to the caller. -/
theorem invalid_workflow_json_degrades_gracefully (text : String) (j : JsonValue)
    (s : String)
    (houter : jsonParseList (cleanJsonChars text.toList) = some j)
    (hfield : jsGetField j "workflowJson" = some (.str s))
    (hne : s ≠ "")
    (hbad : jsonParseStr s = none) :
    (processGeminiReply text).explanation = jsGetField j "explanation" ∧
    (processGeminiReply text).workflow = none := by
  have htext : ¬(text = "") := by
    intro h0
    subst h0
    rw [show cleanJsonChars "".toList = [] from rfl, jsonParseList_nil] at houter
    cases houter
  unfold processGeminiReply
  rw [if_neg htext, houter]
  refine ⟨rfl, ?_⟩
  show parseWorkflowField (jsGetField j "workflowJson") = none
  rw [hfield]
  unfold parseWorkflowField
  rw [if_pos (by simpa [jsTruthy] using hne)]
  simp [jsToStringCoerce, hbad]

/-- Witness for C9: a reply whose `workflowJson` is the invalid fragment
`\x7b` keeps its explanation and drops the workflow. -/
theorem invalid_workflow_json_degrades_gracefully_witness :
    (processGeminiReply "\x7b\"explanation\":\"hi\",\"workflowJson\":\"\x7b\"\x7d").explanation =
      jsGetField (.obj [("explanation", .str "hi"), ("workflowJson", .str "\x7b")])
        "explanation" ∧
    (processGeminiReply "\x7b\"explanation\":\"hi\",\"workflowJson\":\"\x7b\"\x7d").workflow =
      none :=
  invalid_workflow_json_degrades_gracefully
    "\x7b\"explanation\":\"hi\",\"workflowJson\":\"\x7b\"\x7d"
    (.obj [("explanation", .str "hi"), ("workflowJson", .str "\x7b")])
    "\x7b" (by rfl) (by rfl) (by decide) (by rfl)

/-- C10: the inner workflow parse performs no schema or invariant
validation: for every assistant reply whose outer JSON parses to `j` and
whose `workflowJson` field is a non-empty string `s` that parses to any JSON
value `v` whatsoever — no `nodes` or `connections` required, `v` is
universally quantified — the processed result carries exactly `v` as the
workflow. -/
theorem inner_workflow_parse_unvalidated (text : String) (j v : JsonValue)
    (s : String)
    (houter : jsonParseList (cleanJsonChars text.toList) = some j)
    (hfield : jsGetField j "workflowJson" = some (.str s))
    (hne : s ≠ "")
    (hgood : jsonParseStr s = some v) :
    (processGeminiReply text).workflow = some v := by
  have htext : ¬(text = "") := by
    intro h0
    subst h0
    rw [show cleanJsonChars "".toList = [] from rfl, jsonParseList_nil] at houter
    cases houter
  unfold processGeminiReply
  rw [if_neg htext, houter]
  show parseWorkflowField (jsGetField j "workflowJson") = some v
  rw [hfield]
  unfold parseWorkflowField
  rw [if_pos (by simpa [jsTruthy] using hne)]
  simp [jsToStringCoerce, hgood]

/-- Witness for C10: a reply whose `workflowJson` is `"7"` — a bare number,
with no nodes or connections — is returned unchanged as the workflow. -/
theorem inner_workflow_parse_unvalidated_witness :
    (processGeminiReply "\x7b\"explanation\":\"hi\",\"workflowJson\":\"7\"\x7d").workflow =
      some (.num "7") :=
  inner_workflow_parse_unvalidated
    "\x7b\"explanation\":\"hi\",\"workflowJson\":\"7\"\x7d"
    (.obj [("explanation", .str "hi"), ("workflowJson", .str "7")])
    (.num "7") "7" (by rfl) (by rfl) (by decide) (by rfl)
